import Mathlib

/-!
Verification development for the `python-photo-mosaic` repository
(`mosaic.py`).  The Python functions are embedded shallowly: Python ints
become `ℤ`/`ℕ`, Python floats become `ℚ` (exact arithmetic model of the
real-number computation), Python's truthy integer tests become explicit
comparisons, and code that can raise becomes `Option`/`Except` values.
`random.shuffle` is modelled by an arbitrary permutation-producing oracle.
Python's `list.sort` is stable by language specification and is modelled
by the stable `List.insertionSort`.  `numpy.ndarray.argsort` is called
with its default `kind='quicksort'`, which numpy does not document as
stable; it is embedded as one concrete deterministic realization (a
stable argsort), and no theorem below depends on its tie order.
-/

/-- Python `int(q)`: truncation toward zero. -/
def pytrunc (q : ℚ) : ℤ :=
  if 0 ≤ q then ⌊q⌋ else ⌈q⌉

/-- `mosaic.py`, `bound(low, high, value) = max(low, min(high, value))`. -/
def bound (low high value : ℤ) : ℤ :=
  max low (min high value)

/-- Parameter bundle of `Config.__init__` (`mosaic.py` lines 77-84). -/
structure Config where
  tile_ratio : ℚ
  match_width : ℤ
  tile_width : ℤ
  enlargement : ℚ
  color_mode : String
  rotate : Bool

/-- `Config.__init__`: the body is six plain attribute assignments, none of
which can raise; possible construction failure is modelled by `Except`. -/
def Config.init (tile_ratio : ℚ) (tile_width match_width : ℤ)
    (enlargement : ℚ) (color_mode : String) (rotate : Bool) :
    Except String Config :=
  Except.ok
    { tile_ratio := tile_ratio
      match_width := match_width
      tile_width := tile_width
      enlargement := enlargement
      color_mode := color_mode
      rotate := rotate }

/-- Derived property `Config.tile_height = int(tile_width / tile_ratio)`. -/
def Config.tile_height (c : Config) : ℤ :=
  pytrunc ((c.tile_width : ℚ) / c.tile_ratio)

/-- `resize_box_aspect_crop_to_extent(img, target_aspect, centerpoint)`
(`mosaic.py` lines 38-63).  `img` is represented by its integer pixel size
`(width, height)`; the result is the crop box `(left, top, right, bottom)`.
`centerpoint = none` models the Python default `centerpoint=None`, which the
code replaces by `(int(width/2), int(height/2))`. -/
def resize_box_aspect_crop_to_extent (width height : ℤ) (target_aspect : ℚ)
    (centerpoint : Option (ℤ × ℤ)) : ℤ × ℤ × ℤ × ℤ :=
  let cp := centerpoint.getD (pytrunc ((width : ℚ) / 2), pytrunc ((height : ℚ) / 2))
  let requested_target_x := cp.1
  let requested_target_y := cp.2
  let aspect : ℚ := (width : ℚ) / (height : ℚ)
  if target_aspect < aspect then
    -- crop the left and right edges
    let new_width := pytrunc (target_aspect * (height : ℚ))
    let new_width_half := pytrunc ((new_width : ℚ) / 2)
    let target_x := bound new_width_half (width - new_width_half) requested_target_x
    (target_x - new_width_half, 0, target_x + new_width_half, height)
  else
    -- crop the top and bottom
    let new_height := pytrunc ((width : ℚ) / target_aspect)
    let new_height_half := pytrunc ((new_height : ℚ) / 2)
    let target_y := bound new_height_half (height - new_height_half) requested_target_y
    (0, target_y - new_height_half, width, target_y + new_height_half)

/-- The enlarged dimensions computed in `SourceImage.__init__`
(`mosaic.py` lines 171-172): `w = int(img.size[0] * enlargement)`,
`h = int(img.size[1] * enlargement)`. -/
def source_dims (orig_w orig_h : ℕ) (enlargement : ℚ) : ℤ × ℤ :=
  (pytrunc ((orig_w : ℚ) * enlargement), pytrunc ((orig_h : ℚ) * enlargement))

/-- The crop box applied in `SourceImage.__init__` (`mosaic.py` lines
174-180): `w_diff = (w % tile_width)/2` (true division: a float, possibly
half-integral), `h_diff = (h % tile_height)/2`, then
`crop((w_diff, h_diff, w - w_diff, h - h_diff))` when either is nonzero.
The box is returned over `ℚ` exactly as the Python floats are computed;
when no crop happens the box is the whole image `(0, 0, w, h)`. -/
def source_canvas_box (orig_w orig_h : ℕ) (enlargement : ℚ)
    (tile_width tile_height : ℤ) : ℚ × ℚ × ℚ × ℚ :=
  let w := (source_dims orig_w orig_h enlargement).1
  let h := (source_dims orig_w orig_h enlargement).2
  let w_diff : ℚ := ((w % tile_width : ℤ) : ℚ) / 2
  let h_diff : ℚ := ((h % tile_height : ℤ) : ℚ) / 2
  if w_diff ≠ 0 ∨ h_diff ≠ 0 then
    (w_diff, h_diff, (w : ℚ) - w_diff, (h : ℚ) - h_diff)
  else
    (0, 0, (w : ℚ), (h : ℚ))

/-- Per-tile distance computed in `TileBox.best_tile_block_match`
(`mosaic.py` lines 136-140): the mean of the squared pixel differences
between a tile's comparison array and the block, averaged over all
non-index axes.  Arrays are represented flattened, so the mean over axes
`(1,2,3)` (RGB) or `(1,2)` (L) is the mean over all entries. -/
def mse_dist (t a : List ℚ) : ℚ :=
  (List.zipWith (fun x y => (x - y) ^ 2) t a).sum / (t.length : ℚ)

/-- `numpy.ndarray.argsort` with the code's default `kind='quicksort'`:
the indices `0 .. l.length - 1` sorted by their value in `l`.  numpy does
not document this sort as stable, so the order of equal values is
implementation-defined; this embedding fixes one concrete deterministic
realization (the stable one).  No theorem below depends on the tie order
of this function. -/
def argsort (l : List ℚ) : List ℕ :=
  List.insertionSort (fun i j => l.getD i 0 ≤ l.getD j 0) (List.range l.length)

/-- `TileBox.best_tile_block_match` (`mosaic.py` lines 135-141).  When
`color_mode` is neither `'RGB'` nor `'L'` no branch defines
`match_results` and the function raises (`UnboundLocalError`), modelled by
`none`. -/
def best_tile_block_match (color_mode : String) (tile_array : List (List ℚ))
    (a : List ℚ) : Option (List ℕ) :=
  if color_mode = "RGB" then
    some (argsort (tile_array.map (fun t => mse_dist t a)))
  else if color_mode = "L" then
    some (argsort (tile_array.map (fun t => mse_dist t a)))
  else
    none

/-- `shuffle_first_items(lst, i)` (`mosaic.py` lines 17-23).  `random.shuffle`
of the prefix is modelled by the oracle `σ` (an arbitrary reordering
function; theorems assume it permutes its input).  `if not i` is the `i = 0`
test for a natural number count. -/
def shuffle_first_items (σ : List (ℕ × ℕ) → List (ℕ × ℕ))
    (lst : List (ℕ × ℕ)) (i : ℕ) : List (ℕ × ℕ) :=
  if i = 0 then lst else σ (lst.take i) ++ lst.drop i

/-- The sort key of `coords_from_middle` (`mosaic.py` line 273):
`abs(c[0] - x_mid) * y_bias + abs(c[1] - y_mid)` with
`x_mid = int(x_count/2)` and `y_mid = int(y_count/2)` (floor). -/
def pykey (x_count y_count : ℕ) (y_bias : ℚ) (c : ℕ × ℕ) : ℚ :=
  |(c.1 : ℚ) - ((x_count / 2 : ℕ) : ℚ)| * y_bias + |(c.2 : ℚ) - ((y_count / 2 : ℕ) : ℚ)|

/-- The sort key as the spec's words state it (claim C5): exact halves
`x_count/2`, `y_count/2` instead of the code's floored midpoints.  Used
only to compare the spec's description with the code. -/
def specKey (x_count y_count : ℕ) (y_bias : ℚ) (c : ℕ × ℕ) : ℚ :=
  |(c.1 : ℚ) - (x_count : ℚ) / 2| * y_bias + |(c.2 : ℚ) - (y_count : ℚ) / 2|

/-- `itertools.product(range(x_count), range(y_count))`: all grid cells in
column-major enumeration order (x outer loop, y inner loop). -/
def all_coords (x_count y_count : ℕ) : List (ℕ × ℕ) :=
  (List.range x_count).flatMap (fun x => (List.range y_count).map (fun y => (x, y)))

/-- Strict column-major enumeration order on grid cells: `a` is enumerated
before `b` by `itertools.product`. -/
def colOrder (a b : ℕ × ℕ) : Prop :=
  a.1 < b.1 ∨ (a.1 = b.1 ∧ a.2 < b.2)

instance (a b : ℕ × ℕ) : Decidable (colOrder a b) := by
  unfold colOrder; infer_instance

/-- `l` is sorted ascending by `key`, ties broken by the strict order `s`
(the output shape of a stable sort). -/
def lexR {α : Type} (key : α → ℚ) (s : α → α → Prop) (a b : α) : Prop :=
  key a < key b ∨ (key a = key b ∧ s a b)

instance {α : Type} (key : α → ℚ) (s : α → α → Prop) [DecidableRel s]
    (a b : α) : Decidable (lexR key s a b) := by
  unfold lexR; infer_instance

/-- `coords_from_middle(x_count, y_count, y_bias, shuffle_first)`
(`mosaic.py` lines 251-275): enumerate the grid, stable-sort by the
center-distance key, then shuffle the first `shuffle_first` entries
(shuffle oracle `σ`). -/
def coords_from_middle (σ : List (ℕ × ℕ) → List (ℕ × ℕ))
    (x_count y_count : ℕ) (y_bias : ℚ) (shuffle_first : ℕ) : List (ℕ × ℕ) :=
  shuffle_first_items σ
    (List.insertionSort
      (fun a b => pykey x_count y_count y_bias a ≤ pykey x_count y_count y_bias b)
      (all_coords x_count y_count))
    shuffle_first

/-- The assignment loop of `create_mosaic` (`mosaic.py` lines 341-367).
`ms` is the list of per-cell rankings (`matches`, in traversal order),
`available` the availability set (`set(range(len(tile_box.tiles)))` at the
call site).  Returns the list of chosen tile indices in emission order,
paired with `true` when the loop ends normally (including the
"Ran out of tiles!" break) and `false` when it aborts with an uncaught
exception (`IndexError` on `m[0]` for an empty ranking, or `StopIteration`
from `next` when no ranked index is available). -/
def assign_tiles (reuse rotate : Bool) :
    List (List ℕ) → Finset ℕ → List ℕ × Bool
  | [], _ => ([], true)
  | m :: rest, available =>
    if available = ∅ then ([], true)
    else
      match reuse with
      | true =>
        match m.head? with
        | none => ([], false)
        | some j =>
          let r := assign_tiles reuse rotate rest available
          (j :: r.1, r.2)
      | false =>
        match m.find? (fun j => decide (j ∈ available)) with
        | none => ([], false)
        | some j =>
          let indeces :=
            match rotate with
            | true => [j / 4 * 4 + 3, j / 4 * 4 + 2, j / 4 * 4 + 1, j / 4 * 4]
            | false => [j]
          let r := assign_tiles reuse rotate rest (available \ indeces.toFinset)
          (j :: r.1, r.2)

/-! ### Stable-sort lemmas

Python's `list.sort` and the model of `numpy.argsort` are stable sorts by a
key; a stable sort of a list whose elements are strictly ordered by `s`
produces a list pairwise-ordered by the lexicographic relation
`lexR key s`. -/

theorem pairwise_orderedInsert_lex {α : Type} (key : α → ℚ) (s : α → α → Prop)
    (a : α) (l : List α) (hp : l.Pairwise (lexR key s)) (hs : ∀ b ∈ l, s a b) :
    (List.orderedInsert (fun x y => key x ≤ key y) a l).Pairwise (lexR key s) := by
  induction l with
  | nil => exact List.pairwise_singleton _ _
  | cons b t ih =>
    rw [List.pairwise_cons] at hp
    obtain ⟨hbt, hpt⟩ := hp
    rw [List.orderedInsert]
    split_ifs with hab
    · refine List.Pairwise.cons ?_ (List.Pairwise.cons hbt hpt)
      intro x hx
      rcases List.mem_cons.mp hx with rfl | hxt
      · rcases lt_or_eq_of_le hab with h | h
        · exact Or.inl h
        · exact Or.inr ⟨h, hs _ (List.mem_cons_self _ _)⟩
      · have hbxle : key b ≤ key x := by
          rcases hbt x hxt with h | ⟨h, -⟩
          · exact le_of_lt h
          · exact le_of_eq h
        rcases lt_or_eq_of_le (le_trans hab hbxle) with h | h
        · exact Or.inl h
        · exact Or.inr ⟨h, hs _ (List.mem_cons_of_mem _ hxt)⟩
    · have hba : key b < key a := not_le.mp hab
      refine List.Pairwise.cons ?_ (ih hpt (fun c hc => hs c (List.mem_cons_of_mem _ hc)))
      intro x hx
      rcases (List.mem_orderedInsert _).mp hx with rfl | hxt
      · exact Or.inl hba
      · exact hbt x hxt

theorem pairwise_insertionSort_lex {α : Type} (key : α → ℚ) (s : α → α → Prop)
    (l : List α) (hl : l.Pairwise s) :
    (List.insertionSort (fun x y => key x ≤ key y) l).Pairwise (lexR key s) := by
  induction l with
  | nil => exact List.Pairwise.nil
  | cons a t ih =>
    rw [List.pairwise_cons] at hl
    obtain ⟨hat, hpt⟩ := hl
    rw [List.insertionSort]
    exact pairwise_orderedInsert_lex key s a _ (ih hpt)
      (fun b hb => hat b (by simpa using hb))

/-! ### Grid enumeration lemmas -/

theorem mem_all_coords (xc yc : ℕ) (c : ℕ × ℕ) :
    c ∈ all_coords xc yc ↔ c.1 < xc ∧ c.2 < yc := by
  obtain ⟨x, y⟩ := c
  simp only [all_coords, List.mem_flatMap, List.mem_map, List.mem_range]
  constructor
  · rintro ⟨a, ha, b, hb, hab⟩
    injection hab with h1 h2
    subst h1; subst h2
    exact ⟨ha, hb⟩
  · rintro ⟨hx, hy⟩
    exact ⟨x, hx, y, hy, rfl⟩

theorem pairwise_all_coords (xc yc : ℕ) : (all_coords xc yc).Pairwise colOrder := by
  induction xc with
  | zero => exact List.Pairwise.nil
  | succ n ih =>
    rw [all_coords, List.range_succ, List.flatMap_append, List.pairwise_append]
    refine ⟨ih, ?_, ?_⟩
    · simp only [List.flatMap_cons, List.flatMap_nil, List.append_nil]
      rw [List.pairwise_map]
      exact (List.pairwise_lt_range yc).imp (fun h => Or.inr ⟨rfl, h⟩)
    · intro a ha b hb
      have ha' : a.1 < n := ((mem_all_coords n yc a).mp ha).1
      have hb1 : b.1 = n := by
        simp only [List.flatMap_cons, List.flatMap_nil, List.append_nil, List.mem_map] at hb
        obtain ⟨y, -, rfl⟩ := hb
        rfl
      exact Or.inl (by rw [hb1]; exact ha')

theorem nodup_all_coords (xc yc : ℕ) : (all_coords xc yc).Nodup :=
  (pairwise_all_coords xc yc).imp (fun h heq => by
    subst heq
    rcases h with h | ⟨-, h⟩ <;> exact lt_irrefl _ h)

theorem length_all_coords (xc yc : ℕ) : (all_coords xc yc).length = xc * yc := by
  induction xc with
  | zero => simp [all_coords]
  | succ n ih =>
    rw [all_coords, List.range_succ, List.flatMap_append, List.length_append]
    have h1 : ((List.range n).flatMap (fun x => (List.range yc).map (fun y => (x, y)))).length
        = n * yc := ih
    rw [h1]
    simp only [List.flatMap_cons, List.flatMap_nil, List.append_nil, List.length_map,
      List.length_range]
    ring

/-! ### Traversal order (claims C5, C6) -/

theorem coords_from_middle_perm (σ : List (ℕ × ℕ) → List (ℕ × ℕ))
    (hσ : ∀ l, (σ l).Perm l) (xc yc : ℕ) (b : ℚ) (s : ℕ) :
    (coords_from_middle σ xc yc b s).Perm (all_coords xc yc) := by
  rw [coords_from_middle, shuffle_first_items]
  split_ifs with h
  · exact List.perm_insertionSort _ _
  · refine ((hσ _).append_right _).trans ?_
    rw [List.take_append_drop]
    exact List.perm_insertionSort _ _

/-- C5 (amended): with `shuffle_prefix = 0` the traversal order is the full
grid sorted ascending by the key
`|x - floor(x_count/2)| * y_bias + |y - floor(y_count/2)|` (the code's
floored midpoints, not the exact halves `x_count/2`, `y_count/2` of the
claim), ties broken by the column-major enumeration order. -/
theorem c5_traversal_order (σ : List (ℕ × ℕ) → List (ℕ × ℕ))
    (xc yc : ℕ) (b : ℚ) :
    (coords_from_middle σ xc yc b 0).Perm (all_coords xc yc) ∧
    (coords_from_middle σ xc yc b 0).Pairwise (lexR (pykey xc yc b) colOrder) := by
  have h0 : coords_from_middle σ xc yc b 0
      = List.insertionSort (fun a c => pykey xc yc b a ≤ pykey xc yc b c)
          (all_coords xc yc) := by
    rw [coords_from_middle, shuffle_first_items, if_pos rfl]
  rw [h0]
  exact ⟨List.perm_insertionSort _ _,
    pairwise_insertionSort_lex _ _ _ (pairwise_all_coords xc yc)⟩

/-- C5 counterexample: on the 3×1 grid with `y_bias = 1` and
`shuffle_prefix = 0` the traversal produced by the code is
`[(1,0), (0,0), (2,0)]`, which is *not* sorted by the claim's key
`|x - x_count/2| * y_bias + |y - y_count/2|` (exact halves) with ties
broken by enumeration order: that key orders `(2,0)` (key `1`) strictly
before `(0,0)` (key `2`). -/
theorem c5_counterexample :
    ¬ ((coords_from_middle (fun l => l) 3 1 1 0).Perm (all_coords 3 1) ∧
       (coords_from_middle (fun l => l) 3 1 1 0).Pairwise
         (lexR (specKey 3 1 1) colOrder)) := by
  have h : coords_from_middle (fun l => l) 3 1 1 0 = [(1, 0), (0, 0), (2, 0)] := by
    norm_num [coords_from_middle, shuffle_first_items, all_coords, pykey, List.range_succ]
  rw [h]
  rintro ⟨-, hp⟩
  rw [List.pairwise_cons] at hp
  obtain ⟨-, hp⟩ := hp
  rw [List.pairwise_cons] at hp
  have h2 := hp.1 (2, 0) (List.mem_cons_self _ _)
  have hk0 : specKey 3 1 1 (0, 0) = 2 := by
    rw [specKey]
    norm_num
    rw [abs_of_nonneg (by norm_num : (0:ℚ) ≤ 3 / 2), abs_of_nonneg (by norm_num : (0:ℚ) ≤ 1 / 2)]
    norm_num
  have hk2 : specKey 3 1 1 (2, 0) = 1 := by
    rw [specKey]
    norm_num
    simp only [abs_of_nonneg (show (0:ℚ) ≤ 1 / 2 by norm_num)]
    norm_num
  rcases h2 with h2 | ⟨h2, -⟩
  · rw [hk0, hk2] at h2
    norm_num at h2
  · rw [hk0, hk2] at h2
    norm_num at h2

/-- C6: for every shuffle outcome (any prefix permutation `σ`), every
`y_bias` and every `shuffle_prefix`, `coords_from_middle` returns exactly
`x_count * y_count` coordinates, a duplicate-free permutation of the full
grid containing every in-range cell — i.e. each cell appears exactly
once. -/
theorem c6_full_grid (σ : List (ℕ × ℕ) → List (ℕ × ℕ))
    (hσ : ∀ l, (σ l).Perm l) (xc yc : ℕ) (hx : 1 ≤ xc) (hy : 1 ≤ yc)
    (b : ℚ) (s : ℕ) :
    (coords_from_middle σ xc yc b s).length = xc * yc ∧
    (coords_from_middle σ xc yc b s).Perm (all_coords xc yc) ∧
    (coords_from_middle σ xc yc b s).Nodup ∧
    ∀ x y : ℕ, x < xc → y < yc → (x, y) ∈ coords_from_middle σ xc yc b s := by
  have hperm := coords_from_middle_perm σ hσ xc yc b s
  refine ⟨by rw [hperm.length_eq, length_all_coords], hperm,
    hperm.nodup_iff.mpr (nodup_all_coords xc yc), ?_⟩
  intro x y hxlt hylt
  exact hperm.mem_iff.mpr ((mem_all_coords xc yc (x, y)).mpr ⟨hxlt, hylt⟩)

theorem c6_witness :
    (coords_from_middle (fun l => l) 2 2 1 1).length = 2 * 2 ∧
    (coords_from_middle (fun l => l) 2 2 1 1).Nodup ∧
    (0, 0) ∈ coords_from_middle (fun l => l) 2 2 1 1 ∧
    (1, 1) ∈ coords_from_middle (fun l => l) 2 2 1 1 := by
  obtain ⟨h1, -, h3, h4⟩ := c6_full_grid (fun l => l) (fun l => List.Perm.refl l) 2 2
    (by norm_num) (by norm_num) 1 1
  exact ⟨h1, h3, h4 0 0 (by norm_num) (by norm_num), h4 1 1 (by norm_num) (by norm_num)⟩

/-! ### Best-match ranking (claim C9) -/

/-- C9: in any color mode other than `'RGB'` and `'L'` the best-match
query is undefined for every pool and block (the Python function raises
because no branch assigns `match_results`). -/
theorem c9_invalid_mode (mode : String) (h1 : mode ≠ "RGB") (h2 : mode ≠ "L")
    (tile_array : List (List ℚ)) (a : List ℚ) :
    best_tile_block_match mode tile_array a = none := by
  simp [best_tile_block_match, h1, h2]

theorem c9_witness : best_tile_block_match "RGBA" [[1]] [1] = none :=
  c9_invalid_mode "RGBA" (by decide) (by decide) [[1]] [1]

/-! ### Config construction (claim C8) -/

/-- C8 counterexample: constructing a `Config` with `tile_width = 0 < 1`
and `tile_ratio = -1 ≤ 0` succeeds — `Config.__init__` performs no
validation at all, so the claimed construction-time failure does not
happen. -/
theorem c8_counterexample :
    ((0 : ℤ) < 1) ∧ ((-1 : ℚ) ≤ 0) ∧
    (Config.init (-1) 0 20 8 "RGB" false).isOk = true :=
  ⟨by norm_num, by norm_num, rfl⟩

/-- C8 (amended): `Config` construction never fails; the constructor body
is six attribute assignments with no constraint check, so any combination
of parameter values (including non-positive `tile_width`, `tile_ratio`,
`match_width`, `enlargement`) is accepted. -/
theorem c8_no_validation (tr : ℚ) (tw mw : ℤ) (enl : ℚ) (cm : String)
    (rot : Bool) : (Config.init tr tw mw enl cm rot).isOk = true := rfl

/-! ### Assignment loop (claims C1, C3, C4) -/

theorem assign_tiles_chosen_mem (rot : Bool) :
    ∀ (ms : List (List ℕ)) (avail : Finset ℕ) (j : ℕ),
      j ∈ (assign_tiles false rot ms avail).1 → j ∈ avail := by
  intro ms
  induction ms with
  | nil => intro avail j h; simp [assign_tiles] at h
  | cons m rest ih =>
    intro avail j h
    rw [assign_tiles] at h
    split_ifs at h with hav
    · simp at h
    · dsimp only at h
      cases hfind : m.find? (fun k => decide (k ∈ avail)) with
      | none => rw [hfind] at h; simp at h
      | some k =>
        rw [hfind] at h
        dsimp only at h
        simp only [List.mem_cons] at h
        rcases h with rfl | h
        · have := List.find?_some hfind
          simpa using this
        · exact Finset.sdiff_subset (ih _ j h)

/-- C1: in a reuse-disabled run, with rotation enabled no two emitted
records reference the same rotation group (the group of a chosen index `j`
being the four consecutive indices `j / 4 * 4 .. j / 4 * 4 + 3`), and with
rotation disabled no two emitted records reference the same tile index —
for every list of rankings and every initial availability set. -/
theorem c1_no_reuse_unique (ms : List (List ℕ)) (avail : Finset ℕ) :
    (assign_tiles false true ms avail).1.Pairwise
      (fun a b => a / 4 * 4 ≠ b / 4 * 4) ∧
    (assign_tiles false false ms avail).1.Nodup := by
  constructor
  · induction ms generalizing avail with
    | nil => exact List.Pairwise.nil
    | cons m rest ih =>
      rw [assign_tiles]
      split_ifs with hav
      · exact List.Pairwise.nil
      · dsimp only
        cases hfind : m.find? (fun k => decide (k ∈ avail)) with
        | none => exact List.Pairwise.nil
        | some j =>
          dsimp only
          refine List.Pairwise.cons ?_ (ih _)
          intro b hb
          have hbmem := assign_tiles_chosen_mem true rest _ b hb
          have hnotin : b ∉ ([j / 4 * 4 + 3, j / 4 * 4 + 2, j / 4 * 4 + 1, j / 4 * 4] : List ℕ).toFinset :=
            (Finset.mem_sdiff.mp hbmem).2
          simp only [List.toFinset_cons, List.toFinset_nil, insert_emptyc_eq,
            Finset.mem_insert, Finset.mem_singleton] at hnotin
          push_neg at hnotin
          obtain ⟨h3, h2, h1, h0⟩ := hnotin
          intro heq
          omega
  · induction ms generalizing avail with
    | nil => exact List.Pairwise.nil
    | cons m rest ih =>
      rw [assign_tiles]
      split_ifs with hav
      · exact List.Pairwise.nil
      · dsimp only
        cases hfind : m.find? (fun k => decide (k ∈ avail)) with
        | none => exact List.Pairwise.nil
        | some j =>
          dsimp only
          refine List.Pairwise.cons ?_ (ih _)
          intro b hb
          have hbmem := assign_tiles_chosen_mem false rest _ b hb
          have hnotin := (Finset.mem_sdiff.mp hbmem).2
          simp only [List.toFinset_cons, List.toFinset_nil, insert_emptyc_eq,
            Finset.mem_singleton] at hnotin
          exact fun he => hnotin he.symm

/-- C3: in a reuse-enabled run every emitted record's tile index is the
first element (`ranking[0]`) of the corresponding cell's ranking, for
every availability set and regardless of earlier choices (with reuse the
availability set is never consulted beyond the emptiness check and never
shrinks). -/
theorem c3_reuse_top1 (rot : Bool) (ms : List (List ℕ)) (avail : Finset ℕ)
    (i : ℕ) (hi : i < (assign_tiles true rot ms avail).1.length) :
    some ((assign_tiles true rot ms avail).1.getD i 0) = (ms.getD i []).head? := by
  induction ms generalizing i avail with
  | nil => simp [assign_tiles] at hi
  | cons m rest ih =>
    rw [assign_tiles] at hi ⊢
    split_ifs at hi ⊢ with hav
    · simp at hi
    · dsimp only at hi ⊢
      cases hhead : m.head? with
      | none =>
        rw [hhead] at hi
        dsimp only at hi
        simp at hi
      | some j =>
        rw [hhead] at hi
        dsimp only at hi ⊢
        cases i with
        | zero => simp [hhead]
        | succ k =>
          simp only [List.getD_cons_succ]
          simp only [List.length_cons, Nat.succ_lt_succ_iff] at hi
          exact ih _ k hi

theorem c3_witness :
    some ((assign_tiles true false [[2, 0], [1, 0]] {0, 1, 2}).1.getD 1 0)
      = (([[2, 0], [1, 0]] : List (List ℕ)).getD 1 []).head? :=
  c3_reuse_top1 false [[2, 0], [1, 0]] {0, 1, 2} 1 (by decide)

theorem assign_tiles_exhaust (ms : List (List ℕ)) (avail : Finset ℕ)
    (hcov : ∀ m ∈ ms, ∀ j ∈ avail, j ∈ m) :
    (assign_tiles false false ms avail).1.length = min ms.length avail.card ∧
    (assign_tiles false false ms avail).2 = true := by
  induction ms generalizing avail with
  | nil => simp [assign_tiles]
  | cons m rest ih =>
    rw [assign_tiles]
    split_ifs with hav
    · simp [hav]
    · have hne : avail.Nonempty := Finset.nonempty_iff_ne_empty.mpr hav
      obtain ⟨j0, hj0⟩ := hne
      dsimp only
      cases hfind : m.find? (fun k => decide (k ∈ avail)) with
      | none =>
        exfalso
        have := List.find?_eq_none.mp hfind j0 (hcov m (List.mem_cons_self _ _) j0 hj0)
        simp at this
        exact this hj0
      | some j =>
        have hj : j ∈ avail := by simpa using List.find?_some hfind
        dsimp only
        have hsub : avail \ ([j] : List ℕ).toFinset = avail.erase j := by
          simp [Finset.sdiff_singleton_eq_erase]
        rw [hsub]
        have hcov' : ∀ m' ∈ rest, ∀ k ∈ avail.erase j, k ∈ m' := by
          intro m' hm' k hk
          exact hcov m' (List.mem_cons_of_mem _ hm') k (Finset.mem_of_mem_erase hk)
        obtain ⟨hlen, hflag⟩ := ih (avail.erase j) hcov'
        refine ⟨?_, hflag⟩
        simp only [List.length_cons, hlen, Finset.card_erase_of_mem hj]
        have hpos : 1 ≤ avail.card := Finset.card_pos.mpr ⟨j, hj⟩
        omega

/-- C4: with reuse and rotation disabled and a pool of `K` tiles (every
ranking lists all indices below `K`, as the rankings produced by
`best_tile_block_match` do), `K` strictly smaller than the number of grid
cells, exactly `K` assignment records are emitted and the loop then stops
normally (the ok-flag stays `true`: exhaustion is the non-fatal
"Ran out of tiles!" break, not an exception). -/
theorem c4_exhaustion (K : ℕ) (ms : List (List ℕ)) (hK : K < ms.length)
    (hcov : ∀ m ∈ ms, ∀ j, j < K → j ∈ m) :
    (assign_tiles false false ms (Finset.range K)).1.length = K ∧
    (assign_tiles false false ms (Finset.range K)).2 = true := by
  obtain ⟨hlen, hflag⟩ := assign_tiles_exhaust ms (Finset.range K)
    (fun m hm j hj => hcov m hm j (Finset.mem_range.mp hj))
  refine ⟨?_, hflag⟩
  rw [hlen, Finset.card_range]
  omega

theorem c4_witness :
    (assign_tiles false false [[0], [0]] (Finset.range 1)).1.length = 1 ∧
    (assign_tiles false false [[0], [0]] (Finset.range 1)).2 = true :=
  c4_exhaustion 1 [[0], [0]] (by norm_num)
    (by
      intro m hm j hj
      interval_cases j
      simp only [List.mem_cons, List.not_mem_nil, or_false] at hm
      rcases hm with rfl | rfl <;> simp)

/-! ### Aspect crop bounds (claim C10) -/

/-- C10: for every positive image size, positive target aspect and any
requested centerpoint (or the default), the crop box
`(left, top, right, bottom)` computed by `resize_box_aspect_crop_to_extent`
satisfies `0 ≤ left ≤ right ≤ width` and `0 ≤ top ≤ bottom ≤ height`: the
window is always clamped inside the image. -/
theorem c10_crop_in_bounds (width height : ℤ) (hw : 0 < width) (hh : 0 < height)
    (target_aspect : ℚ) (hta : 0 < target_aspect) (centerpoint : Option (ℤ × ℤ)) :
    0 ≤ (resize_box_aspect_crop_to_extent width height target_aspect centerpoint).1 ∧
    (resize_box_aspect_crop_to_extent width height target_aspect centerpoint).1 ≤
      (resize_box_aspect_crop_to_extent width height target_aspect centerpoint).2.2.1 ∧
    (resize_box_aspect_crop_to_extent width height target_aspect centerpoint).2.2.1 ≤ width ∧
    0 ≤ (resize_box_aspect_crop_to_extent width height target_aspect centerpoint).2.1 ∧
    (resize_box_aspect_crop_to_extent width height target_aspect centerpoint).2.1 ≤
      (resize_box_aspect_crop_to_extent width height target_aspect centerpoint).2.2.2 ∧
    (resize_box_aspect_crop_to_extent width height target_aspect centerpoint).2.2.2 ≤ height := by
  have hwq : (0 : ℚ) < (width : ℚ) := by exact_mod_cast hw
  have hhq : (0 : ℚ) < (height : ℚ) := by exact_mod_cast hh
  simp only [resize_box_aspect_crop_to_extent]
  split_ifs with hcase
  · -- vertical crop impossible; horizontal crop branch
    dsimp only
    set rtx := (centerpoint.getD (pytrunc ((width : ℚ) / 2), pytrunc ((height : ℚ) / 2))).1 with hrtx
    have hnn : (0 : ℚ) ≤ target_aspect * (height : ℚ) := le_of_lt (mul_pos hta hhq)
    set nw := pytrunc (target_aspect * (height : ℚ)) with hnw
    have hnwfloor : nw = ⌊target_aspect * (height : ℚ)⌋ := by
      rw [hnw, pytrunc, if_pos hnn]
    have h0nw : 0 ≤ nw := by
      rw [hnwfloor]
      exact Int.floor_nonneg.mpr hnn
    have hnww : nw ≤ width := by
      have h1 : target_aspect * (height : ℚ) < (width : ℚ) := by
        rwa [lt_div_iff₀ hhq] at hcase
      rw [hnwfloor]
      exact le_of_lt (Int.floor_lt.mpr h1)
    have hnn2 : (0 : ℚ) ≤ (nw : ℚ) / 2 := by positivity
    set nwh := pytrunc ((nw : ℚ) / 2) with hnwh
    have hnwhfloor : nwh = ⌊(nw : ℚ) / 2⌋ := by
      rw [hnwh, pytrunc, if_pos hnn2]
    have h0nwh : 0 ≤ nwh := by
      rw [hnwhfloor]
      exact Int.floor_nonneg.mpr hnn2
    have h2nwh : 2 * nwh ≤ nw := by
      have hfl : (nwh : ℚ) ≤ (nw : ℚ) / 2 := by
        rw [hnwhfloor]
        exact Int.floor_le _
      have h2 : (2 : ℚ) * (nwh : ℚ) ≤ (nw : ℚ) := by linarith
      exact_mod_cast h2
    simp only [bound]
    omega
  · dsimp only
    set rty := (centerpoint.getD (pytrunc ((width : ℚ) / 2), pytrunc ((height : ℚ) / 2))).2 with hrty
    have hnn : (0 : ℚ) ≤ (width : ℚ) / target_aspect := by positivity
    set nh := pytrunc ((width : ℚ) / target_aspect) with hnh
    have hnhfloor : nh = ⌊(width : ℚ) / target_aspect⌋ := by
      rw [hnh, pytrunc, if_pos hnn]
    have h0nh : 0 ≤ nh := by
      rw [hnhfloor]
      exact Int.floor_nonneg.mpr hnn
    have hnhh : nh ≤ height := by
      have h1 : (width : ℚ) / (height : ℚ) ≤ target_aspect := not_lt.mp hcase
      have h2 : (width : ℚ) ≤ target_aspect * (height : ℚ) := by
        rwa [div_le_iff₀ hhq] at h1
      have h3 : (width : ℚ) / target_aspect ≤ (height : ℚ) := by
        rw [div_le_iff₀ hta]
        linarith [mul_comm target_aspect (height : ℚ)]
      calc nh = ⌊(width : ℚ) / target_aspect⌋ := hnhfloor
        _ ≤ ⌊(height : ℚ)⌋ := Int.floor_le_floor h3
        _ = height := Int.floor_intCast height
    have hnn2 : (0 : ℚ) ≤ (nh : ℚ) / 2 := by positivity
    set nhh := pytrunc ((nh : ℚ) / 2) with hnhh2
    have hnhhfloor : nhh = ⌊(nh : ℚ) / 2⌋ := by
      rw [hnhh2, pytrunc, if_pos hnn2]
    have h0nhh : 0 ≤ nhh := by
      rw [hnhhfloor]
      exact Int.floor_nonneg.mpr hnn2
    have h2nhh : 2 * nhh ≤ nh := by
      have hfl : (nhh : ℚ) ≤ (nh : ℚ) / 2 := by
        rw [hnhhfloor]
        exact Int.floor_le _
      have h2 : (2 : ℚ) * (nhh : ℚ) ≤ (nh : ℚ) := by linarith
      exact_mod_cast h2
    simp only [bound]
    omega

theorem c10_witness :
    0 ≤ (resize_box_aspect_crop_to_extent 100 50 1 (some (500, -500))).1 ∧
    (resize_box_aspect_crop_to_extent 100 50 1 (some (500, -500))).1 ≤
      (resize_box_aspect_crop_to_extent 100 50 1 (some (500, -500))).2.2.1 ∧
    (resize_box_aspect_crop_to_extent 100 50 1 (some (500, -500))).2.2.1 ≤ 100 ∧
    0 ≤ (resize_box_aspect_crop_to_extent 100 50 1 (some (500, -500))).2.1 ∧
    (resize_box_aspect_crop_to_extent 100 50 1 (some (500, -500))).2.1 ≤
      (resize_box_aspect_crop_to_extent 100 50 1 (some (500, -500))).2.2.2 ∧
    (resize_box_aspect_crop_to_extent 100 50 1 (some (500, -500))).2.2.2 ≤ 50 :=
  c10_crop_in_bounds 100 50 (by norm_num) (by norm_num) 1 (by norm_num) (some (500, -500))

/-! ### Source canvas scaling and crop (claim C7) -/

/-- C7 counterexample: for a 3×3 source image, `enlargement = 1` and
`tile_width = tile_height = 2`, the scaled width is `w = 3` with
remainder `3 % 2 = 1`, and the code's crop amount on the left is the
*exact* half `(3 % 2)/2 = 1/2` — not the truncated half
`floor((3 % 2)/2) = 0` stated by the claim. -/
theorem c7_counterexample :
    (source_canvas_box 3 3 1 2 2).1 = 1 / 2 ∧
    ((⌊((((3 : ℤ) % 2 : ℤ) : ℚ)) / 2⌋ : ℤ) : ℚ) = 0 ∧
    (source_canvas_box 3 3 1 2 2).1 ≠ ((⌊((((3 : ℤ) % 2 : ℤ) : ℚ)) / 2⌋ : ℤ) : ℚ) := by
  have h1 : (source_canvas_box 3 3 1 2 2).1 = 1 / 2 := by
    norm_num [source_canvas_box, source_dims, pytrunc]
  have h2 : ((⌊((((3 : ℤ) % 2 : ℤ) : ℚ)) / 2⌋ : ℤ) : ℚ) = 0 := by norm_num
  refine ⟨h1, h2, ?_⟩
  rw [h1, h2]
  norm_num

/-- C7 (amended): the image is first scaled by `enlargement` with
truncation (`w = int(orig_w * enlargement)`, likewise `h`), then
symmetrically cropped with the crop amount on each side of each axis equal
to *exactly half* the remainder (`(w mod tile_width)/2`, possibly
half-integral — no truncation), so that the resulting width
`right - left = w - (w mod tile_width)` is an exact integer multiple of
`tile_width` and the resulting height an exact multiple of
`tile_height`. -/
theorem c7_exact_crop (ow oh : ℕ) (enl : ℚ) (tw th : ℤ)
    (htw : 0 < tw) (hth : 0 < th) (henl : 0 < enl) :
    (source_dims ow oh enl).1 = ⌊(ow : ℚ) * enl⌋ ∧
    (source_dims ow oh enl).2 = ⌊(oh : ℚ) * enl⌋ ∧
    (source_canvas_box ow oh enl tw th).1 = (((source_dims ow oh enl).1 % tw : ℤ) : ℚ) / 2 ∧
    (source_canvas_box ow oh enl tw th).2.1 = (((source_dims ow oh enl).2 % th : ℤ) : ℚ) / 2 ∧
    (source_canvas_box ow oh enl tw th).2.2.1
      = ((source_dims ow oh enl).1 : ℚ) - (source_canvas_box ow oh enl tw th).1 ∧
    (source_canvas_box ow oh enl tw th).2.2.2
      = ((source_dims ow oh enl).2 : ℚ) - (source_canvas_box ow oh enl tw th).2.1 ∧
    (source_canvas_box ow oh enl tw th).2.2.1 - (source_canvas_box ow oh enl tw th).1
      = (((source_dims ow oh enl).1 / tw * tw : ℤ) : ℚ) ∧
    (source_canvas_box ow oh enl tw th).2.2.2 - (source_canvas_box ow oh enl tw th).2.1
      = (((source_dims ow oh enl).2 / th * th : ℤ) : ℚ) := by
  have hw : (source_dims ow oh enl).1 = ⌊(ow : ℚ) * enl⌋ := by
    rw [source_dims, pytrunc,
      if_pos (mul_nonneg (Nat.cast_nonneg ow) (le_of_lt henl))]
  have hh : (source_dims ow oh enl).2 = ⌊(oh : ℚ) * enl⌋ := by
    rw [source_dims]
    dsimp only
    rw [pytrunc, if_pos (mul_nonneg (Nat.cast_nonneg oh) (le_of_lt henl))]
  set w := (source_dims ow oh enl).1 with hwdef
  set h := (source_dims ow oh enl).2 with hhdef
  have hdivw : (w : ℚ) - ((w % tw : ℤ) : ℚ) = ((w / tw * tw : ℤ) : ℚ) := by
    have hmod := congrArg (fun z : ℤ => (z : ℚ)) (Int.ediv_add_emod w tw)
    push_cast
    push_cast at hmod
    linarith
  have hdivh : (h : ℚ) - ((h % th : ℤ) : ℚ) = ((h / th * th : ℤ) : ℚ) := by
    have hmod := congrArg (fun z : ℤ => (z : ℚ)) (Int.ediv_add_emod h th)
    push_cast
    push_cast at hmod
    linarith
  refine ⟨hw, hh, ?_⟩
  rw [source_canvas_box]
  rw [← hwdef, ← hhdef]
  split_ifs with hcond
  · refine ⟨rfl, rfl, rfl, rfl, ?_, ?_⟩
    · dsimp only
      rw [← hdivw]
      ring
    · dsimp only
      rw [← hdivh]
      ring
  · push_neg at hcond
    obtain ⟨hc1, hc2⟩ := hcond
    have hmw : ((w % tw : ℤ) : ℚ) = 0 := by linarith [hc1]
    have hmh : ((h % th : ℤ) : ℚ) = 0 := by linarith [hc2]
    refine ⟨by rw [hmw]; norm_num, by rw [hmh]; norm_num, by norm_num, by norm_num, ?_, ?_⟩
    · dsimp only
      rw [← hdivw, hmw]
    · dsimp only
      rw [← hdivh, hmh]

theorem c7_witness :
    (source_dims 3 3 1).1 = ⌊((3 : ℕ) : ℚ) * 1⌋ ∧
    (source_dims 3 3 1).2 = ⌊((3 : ℕ) : ℚ) * 1⌋ ∧
    (source_canvas_box 3 3 1 2 2).1 = (((source_dims 3 3 1).1 % 2 : ℤ) : ℚ) / 2 ∧
    (source_canvas_box 3 3 1 2 2).2.1 = (((source_dims 3 3 1).2 % 2 : ℤ) : ℚ) / 2 ∧
    (source_canvas_box 3 3 1 2 2).2.2.1
      = ((source_dims 3 3 1).1 : ℚ) - (source_canvas_box 3 3 1 2 2).1 ∧
    (source_canvas_box 3 3 1 2 2).2.2.2
      = ((source_dims 3 3 1).2 : ℚ) - (source_canvas_box 3 3 1 2 2).2.1 ∧
    (source_canvas_box 3 3 1 2 2).2.2.1 - (source_canvas_box 3 3 1 2 2).1
      = (((source_dims 3 3 1).1 / 2 * 2 : ℤ) : ℚ) ∧
    (source_canvas_box 3 3 1 2 2).2.2.2 - (source_canvas_box 3 3 1 2 2).2.1
      = (((source_dims 3 3 1).2 / 2 * 2 : ℤ) : ℚ) :=
  c7_exact_crop 3 3 1 2 2 (by norm_num) (by norm_num) (by norm_num)
